import Mathlib

/-!
A shallow embedding of the skyline guest-thread scheduler
(`app/src/main/cpp/skyline/kernel/scheduler.cpp`).

Per-core ready queues are modelled as lists of thread snapshots; `shared_ptr`
identity is modelled by the `id` field (thread ids are unique in any reachable
state).  Machine `u64` arithmetic is `Nat` reduced modulo `2 ^ 64` wherever the
source can wrap.  `std::upper_bound`, `std::equal_range` and
`std::list::splice` are modelled by their behaviour on ranges partitioned by
the priority comparator, which is how the source applies them.  Condition
variables, signals and timers are recorded as effect fields of each
operation's result.  `Option.none` marks executions that reach undefined
behaviour (a dereference of a null `shared_ptr` or an out-of-range `at`).
-/

namespace Skyline

/-- One guest thread's scheduler-visible state: the `type::KThread` fields the
scheduler consumes.  `id` stands for the `shared_ptr` identity. -/
structure KThread where
  id : Nat
  priority : Int
  affinityMask : List Bool
  coreId : Nat
  averageTimeslice : Nat
  timesliceStart : Nat
  isPreempted : Bool
  forceYield : Bool
  deriving DecidableEq

/-- The modulus of `u64` arithmetic. -/
def U64LIMIT : Nat := 2 ^ 64

/-- `u64` subtraction with wraparound. -/
def u64sub (a b : Nat) : Nat := (a % U64LIMIT + (U64LIMIT - b % U64LIMIT)) % U64LIMIT

/-- The sentinel core id `constant::ParkedCoreId` (`0xFF`). -/
def ParkedCoreId : Nat := 255

/-- The EWMA update exactly as written in the source (scheduler.cpp:178, 207,
320): `avg / 4 + 3 * (now - start / 4)`.  The division binds to
`timesliceStart` alone, not to the difference. -/
def ewmaCode (avg now start : Nat) : Nat :=
  (avg / 4 + 3 * u64sub now (start / 4)) % U64LIMIT

/-- The EWMA update as the specification states it:
`avg / 4 + 3 * (now - start) / 4` in tick units.  Kept separate so it can be
compared against `ewmaCode`. -/
def ewmaSpec (avg now start : Nat) : Nat :=
  avg / 4 + 3 * (now - start) / 4

/-- Position returned by `std::upper_bound(queue, p, IsHigherPriority)`: the
first index whose element has priority strictly greater than `p` (linear
reading, valid on ranges partitioned by the comparator). -/
def ubPos (p : Int) : List KThread → Nat
  | [] => 0
  | u :: rest => if p < u.priority then 0 else ubPos p rest + 1

/-- Insertion at `std::upper_bound(queue, p, IsHigherPriority)`. -/
def insertUB (p : Int) (t : KThread) : List KThread → List KThread
  | [] => [t]
  | u :: rest => if p < u.priority then t :: u :: rest else u :: insertUB p t rest

/-- `queue.splice(std::upper_bound(queue, p), queue, queue.begin())`: move the
front element in front of the upper bound of `p` in the same queue. -/
def spliceFrontUB (p : Int) (q : List KThread) : List KThread :=
  match q with
  | [] => []
  | h :: rest => if p < h.priority then h :: rest else insertUB p h rest

/-- `std::lower_bound` position of `p`, the first component of
`std::equal_range`. -/
def lbPos (p : Int) : List KThread → Nat
  | [] => 0
  | u :: rest => if u.priority < p then lbPos p rest + 1 else 0

/-- `std::find` of the thread inside `std::equal_range(queue, p)`, as on
Rotate's force-yield path (scheduler.cpp:203-205). -/
def bandFind (tid : Nat) (p : Int) (q : List KThread) : Bool :=
  ((q.drop (lbPos p q)).take (ubPos p q - lbPos p q)).any (fun u => u.id == tid)

/-- Index of the first queue element with the given identity (`std::find`). -/
def findIdxId (tid : Nat) : List KThread → Option Nat
  | [] => none
  | u :: rest => if u.id = tid then some 0 else (findIdxId tid rest).map (· + 1)

/-- `queue.erase` of the first element with the given identity. -/
def eraseById (tid : Nat) : List KThread → List KThread
  | [] => []
  | u :: rest => if u.id = tid then rest else u :: eraseById tid rest

/-- Update the thread object with the given identity through one of its queue
aliases (the queues hold handles to the one shared object). -/
def updateById (tid : Nat) (f : KThread → KThread) (q : List KThread) : List KThread :=
  q.map (fun u => if u.id = tid then f u else u)

/-- Effects of `Scheduler::InsertThread` besides the queue itself:
`SendSignal(YieldSignal)` target, the `YieldPending` write, and the
`wakeCondition.notify_one` target. -/
structure InsertEffects where
  signaledId : Option Nat
  yieldPendingSet : Bool
  notifiedId : Option Nat
  deriving DecidableEq

/-- `Scheduler::InsertThread` (scheduler.cpp:85-118) acting on the destination
core's queue.  `callerId` is the identity of `state.thread`. -/
def insertThread (callerId : Nat) (t : KThread) (q : List KThread) :
    List KThread × InsertEffects :=
  match q with
  | [] => ([t], ⟨none, false, if t.id = callerId then none else some t.id⟩)
  | h :: rest =>
    if t.priority < h.priority then
      let q1 :=
        if t.id = callerId then
          t :: spliceFrontUB t.priority ({ h with forceYield := true } :: rest)
        else
          h :: t :: rest
      let eff :=
        match q1 with
        | [] => InsertEffects.mk none false none
        | f :: _ =>
          if f.id = callerId then
            InsertEffects.mk none true (if t.id = callerId then none else some t.id)
          else
            InsertEffects.mk (some f.id) false (if t.id = callerId then none else some t.id)
      (q1, eff)
    else
      (insertUB t.priority t (h :: rest), ⟨none, false, none⟩)

/-- Result of `Scheduler::Rotate`.  `error = true` records the
`InvalidSchedulerState` exception exits; the thread object survives a throw
unchanged. -/
structure RotateResult where
  thread : KThread
  queue : List KThread
  error : Bool
  notifiedId : Option Nat
  timerDisarmed : Bool
  deriving DecidableEq

/-- `Scheduler::Rotate` (scheduler.cpp:172-222) for calling thread `t` on its
core's queue.  `none` marks the undefined `front()` of an empty queue. -/
def rotate (t : KThread) (q : List KThread) (now : Nat) (cooperative : Bool) :
    Option RotateResult :=
  match q with
  | [] => none
  | h :: rest =>
    if h.id = t.id then
      let h1 : KThread :=
        { h with averageTimeslice := ewmaCode h.averageTimeslice now h.timesliceStart,
                 isPreempted := false, forceYield := false }
      let q1 := spliceFrontUB h.priority (h1 :: rest)
      let notified :=
        match q1 with
        | [] => none
        | f :: _ => if f.id = h.id then none else some f.id
      some ⟨h1, q1, false, notified, cooperative && h.isPreempted⟩
    else if t.forceYield then
      if bandFind t.id t.priority (h :: rest) then
        let t1 : KThread :=
          { t with averageTimeslice := ewmaCode t.averageTimeslice now t.timesliceStart,
                   isPreempted := false, forceYield := false }
        some ⟨t1,
              updateById t.id
                (fun u =>
                  { u with averageTimeslice := ewmaCode u.averageTimeslice now u.timesliceStart,
                           isPreempted := false, forceYield := false }) (h :: rest),
              false, none, cooperative && t.isPreempted⟩
      else
        some ⟨t, h :: rest, true, none, false⟩
    else
      some ⟨t, h :: rest, true, none, false⟩

/-- Result of `Scheduler::UpdatePriority`. -/
structure UpdateResult where
  queue : List KThread
  signaledId : Option Nat
  timerArmed : Bool
  timerDisarmed : Bool
  thread : KThread
  deriving DecidableEq

/-- `Scheduler::UpdatePriority` (scheduler.cpp:224-267) for thread `t`, whose
`priority` field already holds the new priority.  The combined early return at
line 230 covers `currentIt == queue.begin()` as well, so the head branch at
lines 233-245 is unreachable and is not represented. -/
def updatePriority (t : KThread) (q : List KThread) (preemptionPriority : Int) :
    UpdateResult :=
  match findIdxId t.id q with
  | none => ⟨q, none, false, false, t⟩
  | some i =>
    if i = 0 then ⟨q, none, false, false, t⟩
    else if ubPos t.priority q = i then ⟨q, none, false, false, t⟩
    else
      let q1 := eraseById t.id q
      let dis := t.isPreempted && decide (t.priority ≠ preemptionPriority)
      let t1 := if dis then { t with isPreempted := false } else t
      match q1 with
      | [] => ⟨[t1], none, false, dis, t1⟩
      | f :: rest =>
        if t.priority < f.priority then ⟨f :: t1 :: rest, some f.id, false, dis, t1⟩
        else ⟨insertUB t.priority t1 (f :: rest), none, false, dis, t1⟩

/-- Result of `Scheduler::RemoveThread`. -/
structure RemoveResult where
  thread : KThread
  queue : List KThread
  notifiedId : Option Nat
  timerDisarmed : Bool
  yieldPending : Bool
  deriving DecidableEq

/-- `Scheduler::RemoveThread` (scheduler.cpp:309-335) for calling thread `t`
on its core's queue. -/
def removeThread (t : KThread) (q : List KThread) (now : Nat) : RemoveResult :=
  match findIdxId t.id q with
  | none => ⟨{ t with isPreempted := false }, q, none, t.isPreempted, false⟩
  | some i =>
    let q1 := eraseById t.id q
    let t1 :=
      if i = 0 then
        if t.timesliceStart ≠ 0 then
          { t with averageTimeslice := ewmaCode t.averageTimeslice now t.timesliceStart }
        else t
      else t
    let notified :=
      if i = 0 then
        match q1 with
        | [] => none
        | f :: _ => some f.id
      else none
    ⟨{ t1 with isPreempted := false }, q1, notified, t.isPreempted, false⟩

/-- Result of `Scheduler::TimedWaitSchedule`. -/
structure TimedWaitResult where
  acquired : Bool
  thread : KThread
  queue : List KThread
  timerArmed : Bool
  loadBalanced : Bool
  deriving DecidableEq

/-- `Scheduler::TimedWaitSchedule` (scheduler.cpp:152-170).  `becameHead`
records whether the wait predicate (`!queue.empty() && queue.front() == t`)
became true within the timeout; the function contains no load-balancing
call. -/
def timedWaitSchedule (t : KThread) (q : List KThread) (preemptionPriority : Int)
    (now : Nat) (becameHead : Bool) : TimedWaitResult :=
  match becameHead with
  | true =>
    if t.priority = preemptionPriority then
      ⟨true, { t with isPreempted := true, timesliceStart := now }, q, true, false⟩
    else
      ⟨true, { t with timesliceStart := now }, q, false, false⟩
  | false => ⟨false, t, q, false, false⟩

/-- One virtual core: `Scheduler::CoreContext`. -/
structure CoreCtx where
  id : Nat
  preemptionPriority : Int
  queue : List KThread
  deriving DecidableEq

/-- Apply a queue transformation to the core at a given index
(`cores.at(index)`). -/
def modifyCore : List CoreCtx → Nat → (List KThread → List KThread) → List CoreCtx
  | [], _, _ => []
  | c :: rest, 0, f => { c with queue := f c.queue } :: rest
  | c :: rest, n + 1, f => c :: modifyCore rest n f

/-- The whole scheduler state visible to the queue-level claims. -/
structure Sched where
  cores : List CoreCtx
  parked : List KThread
  deriving DecidableEq

/-- `InsertThread` at the scheduler level: it touches only the queue of core
`t.coreId`. -/
def schedInsert (s : Sched) (callerId : Nat) (t : KThread) : Sched :=
  { s with cores := modifyCore s.cores t.coreId (fun q => (insertThread callerId t q).1) }

/-- `RemoveThread` at the scheduler level: it touches only the queue of core
`t.coreId`. -/
def schedRemove (s : Sched) (t : KThread) (now : Nat) : Sched :=
  { s with cores := modifyCore s.cores t.coreId (fun q => (removeThread t q now).queue) }

/-- The inner loop of `Scheduler::LoadBalance`'s projection
(scheduler.cpp:46-50): accumulate the average timeslices of resident threads
whose priority is not lower than the candidate's. -/
def tsGo (prio : Int) : List KThread → Nat → Nat
  | [], acc => acc
  | r :: rest, acc =>
    tsGo prio rest
      (if r.priority ≤ prio then
        (acc + (if r.averageTimeslice ≠ 0 then r.averageTimeslice else 1)) % U64LIMIT
      else acc)

/-- The projected wait of a thread of priority `prio` on a core with the given
queue (scheduler.cpp:36-52). -/
def threadTimeslice (now : Nat) (prio : Int) (q : List KThread) : Nat :=
  match q with
  | [] => 0
  | running :: rest =>
    tsGo prio rest
      (if running.averageTimeslice ≠ 0 then
        min (u64sub running.averageTimeslice (u64sub now running.timesliceStart)) 1
      else if running.timesliceStart ≠ 0 then u64sub now running.timesliceStart
      else 1)

/-- One iteration of `LoadBalance`'s core-selection loop
(scheduler.cpp:34-58), carrying `optimalCore`/`minTimeslice` as the
accumulator; the tie-break prefers the candidate equal to the current core. -/
def selectStep (t : KThread) (currentId : Nat) (now : Nat)
    (acc : Option (Nat × Nat)) (c : CoreCtx) : Option (Nat × Nat) :=
  if t.affinityMask.getD c.id false then
    let ts := threadTimeslice now t.priority c.queue
    match acc with
    | none => some (c.id, ts)
    | some (bid, bts) =>
      if ts < bts ∨ (ts = bts ∧ c.id = currentId) then some (c.id, ts)
      else some (bid, bts)
  else acc

/-- `LoadBalance`'s selection loop over all cores. -/
def selectGo (t : KThread) (currentId : Nat) (now : Nat) :
    List CoreCtx → Option (Nat × Nat) → Option (Nat × Nat)
  | [], acc => acc
  | c :: rest, acc => selectGo t currentId now rest (selectStep t currentId now acc c)

/-- Outcome of `Scheduler::LoadBalance`: `undef` marks reaching undefined
behaviour (null `optimalCore` or out-of-range `at`),
`externalMigrationError` the exception at scheduler.cpp:65. -/
inductive LBOutcome
  | undef : LBOutcome
  | externalMigrationError : LBOutcome
  | ok : Nat → Bool → List CoreCtx → LBOutcome
  deriving DecidableEq

/-- `Scheduler::LoadBalance` (scheduler.cpp:25-83).  `callerId` is the
identity of `state.thread`; the returned `Bool` of `ok` records whether the
thread migrated to a different core. -/
def loadBalance (cores : List CoreCtx) (t : KThread) (callerId : Nat)
    (alwaysInsert : Bool) (now : Nat) : LBOutcome :=
  match cores.get? t.coreId with
  | none => LBOutcome.undef
  | some cur =>
    if cur.queue ≠ [] ∧ t.affinityMask.count true ≠ 1 then
      match selectGo t cur.id now cores none with
      | none => LBOutcome.undef
      | some (bid, _) =>
        if bid ≠ cur.id then
          if alwaysInsert = false ∧ t.id = callerId then
            let r := removeThread t cur.queue now
            let cores1 := modifyCore cores t.coreId (fun _ => r.queue)
            let t1 := { r.thread with coreId := bid }
            LBOutcome.ok bid true (modifyCore cores1 bid (fun q => (insertThread callerId t1 q).1))
          else if alwaysInsert = false ∧ t.id ≠ callerId then
            LBOutcome.externalMigrationError
          else
            let t1 := { t with coreId := bid }
            LBOutcome.ok bid true (modifyCore cores bid (fun q => (insertThread callerId t1 q).1))
        else
          if alwaysInsert then
            LBOutcome.ok bid false (modifyCore cores bid (fun q => (insertThread callerId t q).1))
          else LBOutcome.ok bid false cores
    else
      if alwaysInsert then
        LBOutcome.ok t.coreId false
          (modifyCore cores t.coreId (fun q => (insertThread callerId t q).1))
      else LBOutcome.ok t.coreId false cores

/-- The admission test of `ParkThread`'s scan (scheduler.cpp:277): a core
other than the original one, admitted by the affinity mask, whose queue is
empty or whose head has strictly lower priority than the parking thread. -/
def parkAdmissB (origId : Nat) (mask : List Bool) (p : Int) (c : CoreCtx) : Bool :=
  decide (origId ≠ c.id) && mask.getD c.id false &&
    (match c.queue with
     | [] => true
     | h :: _ => decide (p < h.priority))

/-- `ParkThread`'s scan loop (scheduler.cpp:276-278): every admissible core
overwrites `coreId`, so the accumulator ends at the last admissible core. -/
def parkSelectGo (pred : CoreCtx → Bool) : List CoreCtx → Nat → Nat
  | [], acc => acc
  | c :: rest, acc => parkSelectGo pred rest (if pred c then c.id else acc)

/-- Result of `Scheduler::ParkThread` up to its terminal wait/insert. -/
structure ParkResult where
  newCoreId : Nat
  cores : List CoreCtx
  parked : List KThread
  enteredParked : Bool
  deriving DecidableEq

/-- `Scheduler::ParkThread` (scheduler.cpp:269-287): remove self, scan for an
admissible core, then either insert into the chosen core or enter the parked
queue at the upper bound of the thread's priority. -/
def parkThread (cores : List CoreCtx) (parked : List KThread) (t : KThread)
    (now : Nat) : ParkResult :=
  let q0 := ((cores.get? t.coreId).map CoreCtx.queue).getD []
  let r := removeThread t q0 now
  let cores1 := modifyCore cores t.coreId (fun _ => r.queue)
  let newId := parkSelectGo (parkAdmissB t.coreId t.affinityMask t.priority) cores1 ParkedCoreId
  if newId = ParkedCoreId then
    ⟨ParkedCoreId, cores1,
      insertUB t.priority { r.thread with coreId := ParkedCoreId } parked, true⟩
  else
    let t1 := { r.thread with coreId := newId }
    ⟨newId, modifyCore cores1 newId (fun q => (insertThread t1.id t1 q).1), parked, false⟩

/-- The core array as `ParkThread` sees it during its scan: the caller's core
queue after the initial `RemoveThread`. -/
def parkCores1 (cores : List CoreCtx) (t : KThread) (now : Nat) : List CoreCtx :=
  modifyCore cores t.coreId
    (fun _ => (removeThread t (((cores.get? t.coreId).map CoreCtx.queue).getD []) now).queue)

/-- Result of `Scheduler::WakeParkedThread`: which parked thread claimed which
core, and whether the caller's wake condition was notified. -/
structure WakeResult where
  claimedId : Option Nat
  newCoreId : Option Nat
  notified : Bool
  deriving DecidableEq

/-- `Scheduler::WakeParkedThread` (scheduler.cpp:289-307) for calling thread
`t` whose core queue is `q`.  Line 295 leaves `nextThread` null when
`q.size() <= 1`, and line 296 dereferences it unconditionally; `none` marks
that undefined behaviour. -/
def wakeParkedThread (parked : List KThread) (t : KThread) (q : List KThread) :
    Option WakeResult :=
  match parked with
  | [] => some ⟨none, none, false⟩
  | p :: _ =>
    match (if q.length > 1 then q.get? 1 else none) with
    | none => none
    | some nt =>
      let ntFiltered : Option KThread := if nt.priority = t.priority then some nt else none
      if p.priority < t.priority ∨
          (p.priority = t.priority ∧
            (ntFiltered = none ∨ p.timesliceStart < nt.timesliceStart)) then
        some ⟨some p.id, some t.coreId, true⟩
      else
        some ⟨none, none, false⟩

/-- Queue-order invariant: non-strictly sorted by ascending numeric
priority. -/
def SortedQ (q : List KThread) : Prop :=
  List.Pairwise (fun a b => a.priority ≤ b.priority) q

instance (q : List KThread) : Decidable (SortedQ q) :=
  List.instDecidablePairwise q

/-- All core queues sorted. -/
def AllSortedQ (cs : List CoreCtx) : Prop := ∀ c ∈ cs, SortedQ c.queue

instance (cs : List CoreCtx) : Decidable (AllSortedQ cs) :=
  List.decidableBAll _ cs

/-- The core at list position `k` carries id `n + k`: the scheduler's core
array is indexed by core id. -/
def idsAligned : List CoreCtx → Nat → Bool
  | [], _ => true
  | c :: rest, n => (c.id == n) && idsAligned rest (n + 1)

/-- Invariant of `LoadBalance`'s selection loop after some prefix of the cores
has been processed: the accumulator is `none` exactly while no admitted core
has been seen; otherwise it holds an admitted core realizing the minimum
projection over the processed prefix, and it holds the current core whenever
the current core attains that minimum. -/
def SelGood (t : KThread) (currentId : Nat) (now : Nat) (processed : List CoreCtx)
    (acc : Option (Nat × Nat)) : Prop :=
  match acc with
  | none => ∀ c ∈ processed, t.affinityMask.getD c.id false = false
  | some (bid, bts) =>
    (∃ c ∈ processed, t.affinityMask.getD c.id false = true ∧ c.id = bid ∧
      threadTimeslice now t.priority c.queue = bts) ∧
    (∀ c ∈ processed, t.affinityMask.getD c.id false = true →
      bts ≤ threadTimeslice now t.priority c.queue) ∧
    ((∃ c ∈ processed, t.affinityMask.getD c.id false = true ∧ c.id = currentId ∧
      threadTimeslice now t.priority c.queue = bts) → bid = currentId)

/-- A thread literal used by concrete instances. -/
def mkT (i : Nat) (p : Int) : KThread :=
  ⟨i, p, [true, true, true, true], 0, 0, 0, false, false⟩

/-- A thread that has been head since tick 4 with no accumulated average. -/
def tC1 : KThread := ⟨1, 0, [true, true, true, true], 0, 0, 4, false, false⟩

/-- A head of priority 40. -/
def hC2 : KThread := mkT 1 40

/-- A thread of priority 30 inserted externally. -/
def tC2 : KThread := mkT 2 30

/-- A parked thread of priority 10. -/
def pC3 : KThread := mkT 9 10

/-- A running thread of priority 40, alone on its core. -/
def tC3 : KThread := mkT 1 40

/-- A thread of priority 20 on core 0 with affinity mask 0b0111. -/
def tC4 : KThread := ⟨5, 20, [true, true, true, false], 0, 0, 0, false, false⟩

/-- Four cores: 0, 1, 2 empty, core 3 occupied. -/
def coresC4 : List CoreCtx := [⟨0, 0, []⟩, ⟨1, 0, []⟩, ⟨2, 0, []⟩, ⟨3, 0, [mkT 7 10]⟩]

/-- A head thread whose priority was just lowered to 40. -/
def tC5 : KThread := mkT 1 40

/-- The thread behind it with strictly higher priority 30. -/
def uC5 : KThread := mkT 2 30

/-- A thread with `forceYield` set that is in no queue. -/
def tC6 : KThread := ⟨1, 10, [true, true, true, true], 0, 0, 0, false, true⟩

/-- The thread actually occupying the core in the C6 scenario. -/
def uC6 : KThread := mkT 2 10

/-- A resident thread with zero average and zero start: its projected wait
contribution is 1. -/
def runnerC7 : KThread := ⟨8, 5, [true, true, true, true], 0, 0, 0, false, false⟩

/-- Two cores with identical load, so their projections tie. -/
def coresC7 : List CoreCtx := [⟨0, 0, [runnerC7]⟩, ⟨1, 0, [runnerC7]⟩]

/-- A thread on core 0 with affinity for cores 0 and 1. -/
def tC7 : KThread := ⟨3, 5, [true, true, false, false], 0, 0, 0, false, false⟩

/-- A two-core scheduler state with one resident thread. -/
def sC8 : Sched := ⟨[⟨0, 0, [mkT 1 40]⟩, ⟨1, 0, []⟩], []⟩

/-- A fresh thread, absent from every queue of `sC8`. -/
def tC8 : KThread := mkT 2 30

/-- A preempted thread that is in no queue. -/
def tC10 : KThread := ⟨2, 30, [true, true, true, true], 0, 5, 7, true, false⟩

/-- The queue of the only core of `sC10`. -/
def qC10 : List KThread := [mkT 1 40]

/-- A one-core scheduler state not containing `tC10`. -/
def sC10 : Sched := ⟨[⟨0, 0, qC10⟩], []⟩

theorem mem_insertUB {p : Int} {t b : KThread} :
    ∀ {l : List KThread}, b ∈ insertUB p t l ↔ b = t ∨ b ∈ l := by
  intro l
  induction l with
  | nil => simp [insertUB]
  | cons u rest ih =>
    by_cases hc : p < u.priority
    · rw [insertUB, if_pos hc]
      exact List.mem_cons
    · rw [insertUB, if_neg hc]
      simp only [List.mem_cons, ih]
      tauto

theorem insertUB_sorted {p : Int} {t : KThread} (hp : t.priority = p) :
    ∀ {l : List KThread}, SortedQ l → SortedQ (insertUB p t l) := by
  intro l
  induction l with
  | nil => intro _; simp [insertUB, SortedQ]
  | cons u rest ih =>
    intro h
    rw [SortedQ, List.pairwise_cons] at h
    obtain ⟨hu, hrest⟩ := h
    by_cases hc : p < u.priority
    · rw [insertUB, if_pos hc]
      refine List.Pairwise.cons ?_ (List.Pairwise.cons hu hrest)
      intro b hb
      rcases List.mem_cons.mp hb with rfl | hb
      · exact le_of_lt (hp ▸ hc)
      · exact le_trans (le_of_lt (hp ▸ hc)) (hu b hb)
    · rw [insertUB, if_neg hc]
      refine List.Pairwise.cons ?_ (ih hrest)
      intro b hb
      rcases mem_insertUB.mp hb with rfl | hb
      · exact hp ▸ (not_lt.mp hc)
      · exact hu b hb

theorem mem_eraseById {tid : Nat} {b : KThread} :
    ∀ {l : List KThread}, b ∈ eraseById tid l → b ∈ l := by
  intro l
  induction l with
  | nil => simp [eraseById]
  | cons u rest ih =>
    by_cases hc : u.id = tid
    · rw [eraseById, if_pos hc]
      intro h; exact List.mem_cons_of_mem _ h
    · rw [eraseById, if_neg hc]
      intro h
      rcases List.mem_cons.mp h with rfl | h
      · exact List.mem_cons_self _ _
      · exact List.mem_cons_of_mem _ (ih h)

theorem sorted_eraseById {tid : Nat} :
    ∀ {l : List KThread}, SortedQ l → SortedQ (eraseById tid l) := by
  intro l
  induction l with
  | nil => intro h; exact h
  | cons u rest ih =>
    intro h
    rw [SortedQ, List.pairwise_cons] at h
    obtain ⟨hu, hrest⟩ := h
    by_cases hc : u.id = tid
    · rw [eraseById, if_pos hc]; exact hrest
    · rw [eraseById, if_neg hc]
      exact List.Pairwise.cons (fun b hb => hu b (mem_eraseById hb)) (ih hrest)

theorem sorted_drop1 {l : List KThread} (h : SortedQ l) : SortedQ (l.drop 1) := by
  cases l with
  | nil => exact h
  | cons u rest =>
    rw [SortedQ, List.pairwise_cons] at h
    exact h.2

theorem eraseById_of_none {tid : Nat} :
    ∀ {l : List KThread}, (∀ u ∈ l, u.id ≠ tid) → eraseById tid l = l := by
  intro l
  induction l with
  | nil => intro _; rfl
  | cons u rest ih =>
    intro h
    rw [eraseById, if_neg (h u (List.mem_cons_self _ _))]
    rw [ih (fun v hv => h v (List.mem_cons_of_mem _ hv))]

theorem findIdxId_eq_none {tid : Nat} :
    ∀ {l : List KThread}, findIdxId tid l = none ↔ ∀ u ∈ l, u.id ≠ tid := by
  intro l
  induction l with
  | nil => simp [findIdxId]
  | cons u rest ih =>
    by_cases hc : u.id = tid
    · simp [findIdxId, hc]
    · simp [findIdxId, hc, ih]

theorem findIdxId_get {tid : Nat} :
    ∀ {l : List KThread} {i : Nat}, findIdxId tid l = some i →
      ∃ u, l.get? i = some u ∧ u.id = tid := by
  intro l
  induction l with
  | nil => intro i h; exact absurd h (by simp [findIdxId])
  | cons u rest ih =>
    intro i h
    by_cases hc : u.id = tid
    · rw [findIdxId, if_pos hc] at h
      obtain rfl : (0 : Nat) = i := Option.some.inj h
      exact ⟨u, rfl, hc⟩
    · rw [findIdxId, if_neg hc] at h
      obtain ⟨j, hj, rfl⟩ := Option.map_eq_some'.mp h
      obtain ⟨v, hv, hvid⟩ := ih hj
      exact ⟨v, hv, hvid⟩

theorem findIdxId_zero {tid : Nat} {l : List KThread} (h : findIdxId tid l = some 0) :
    ∃ u rest, l = u :: rest ∧ u.id = tid := by
  cases l with
  | nil => exact absurd h (by simp [findIdxId])
  | cons u rest =>
    by_cases hc : u.id = tid
    · exact ⟨u, rest, rfl, hc⟩
    · rw [findIdxId, if_neg hc] at h
      obtain ⟨j, _, hj⟩ := Option.map_eq_some'.mp h
      exact absurd hj (by simp)

theorem findIdxId_cons_succ {tid : Nat} {u : KThread} {rest : List KThread} {i : Nat}
    (h : findIdxId tid (u :: rest) = some (i + 1)) :
    u.id ≠ tid ∧ findIdxId tid rest = some i := by
  by_cases hc : u.id = tid
  · rw [findIdxId, if_pos hc] at h
    exact absurd (Option.some.inj h) (by simp)
  · rw [findIdxId, if_neg hc] at h
    obtain ⟨j, hj, hji⟩ := Option.map_eq_some'.mp h
    have : j = i := by omega
    exact ⟨hc, this ▸ hj⟩

theorem ubPos_get {p : Int} :
    ∀ {l : List KThread} {i : Nat}, ubPos p l = i → ∀ {u : KThread},
      l.get? i = some u → p < u.priority := by
  intro l
  induction l with
  | nil => intro i _ u h; exact absurd h (by simp)
  | cons v rest ih =>
    intro i hpos u hget
    by_cases hc : p < v.priority
    · rw [ubPos, if_pos hc] at hpos
      subst hpos
      obtain rfl : v = u := Option.some.inj hget
      exact hc
    · rw [ubPos, if_neg hc] at hpos
      cases i with
      | zero => omega
      | succ j =>
        have hj : ubPos p rest = j := by omega
        exact ih hj (by simpa using hget)

theorem sorted_updateById {tid : Nat} {f : KThread → KThread}
    (hf : ∀ u, (f u).priority = u.priority) {l : List KThread} (h : SortedQ l) :
    SortedQ (updateById tid f l) := by
  rw [SortedQ, updateById, List.pairwise_map]
  refine h.imp ?_
  intro a b hab
  by_cases ha : a.id = tid <;> by_cases hb : b.id = tid <;>
    simp [ha, hb, hf a, hf b, hab]

theorem removeThread_queue (t : KThread) (q : List KThread) (now : Nat) :
    (removeThread t q now).queue = eraseById t.id q := by
  rw [removeThread]
  cases h : findIdxId t.id q with
  | none => exact (eraseById_of_none (findIdxId_eq_none.mp h)).symm
  | some i => rfl

theorem eraseById_insertUB {p : Int} {t : KThread} :
    ∀ {l : List KThread}, (∀ u ∈ l, u.id ≠ t.id) →
      eraseById t.id (insertUB p t l) = l := by
  intro l
  induction l with
  | nil => intro _; simp [insertUB, eraseById]
  | cons u rest ih =>
    intro h
    by_cases hc : p < u.priority
    · rw [insertUB, if_pos hc, eraseById, if_pos rfl]
    · rw [insertUB, if_neg hc, eraseById,
        if_neg (h u (List.mem_cons_self _ _)),
        ih (fun v hv => h v (List.mem_cons_of_mem _ hv))]

theorem insertThread_dethrone {callerId : Nat} {t hd : KThread} {rest : List KThread}
    (hc : t.priority < hd.priority) (hid : t.id ≠ callerId) :
    (insertThread callerId t (hd :: rest)).1 = hd :: t :: rest := by
  simp only [insertThread, if_pos hc, if_neg hid]

theorem insertThread_tail_sorted {callerId : Nat} {t : KThread} :
    ∀ {q : List KThread}, SortedQ q → SortedQ ((insertThread callerId t q).1.drop 1) := by
  intro q hs
  cases q with
  | nil => simp [insertThread, SortedQ]
  | cons hd rest =>
    rw [SortedQ, List.pairwise_cons] at hs
    obtain ⟨hhd, hrest⟩ := hs
    by_cases hc : t.priority < hd.priority
    · by_cases hid : t.id = callerId
      · simp only [insertThread, if_pos hc, if_pos hid]
        rw [spliceFrontUB, if_pos hc]
        show SortedQ ({ hd with forceYield := true } :: rest)
        exact List.Pairwise.cons hhd hrest
      · simp only [insertThread, if_pos hc, if_neg hid]
        show SortedQ (t :: rest)
        exact List.Pairwise.cons
          (fun b hb => le_trans (le_of_lt hc) (hhd b hb)) hrest
    · simp only [insertThread, if_neg hc]
      exact sorted_drop1 (insertUB_sorted rfl (List.Pairwise.cons hhd hrest))

theorem insertThread_sorted_cons {callerId : Nat} {t hd : KThread} {rest : List KThread}
    (hs : SortedQ (hd :: rest)) (hcond : t.id = callerId ∨ ¬t.priority < hd.priority) :
    SortedQ ((insertThread callerId t (hd :: rest)).1) := by
  rw [SortedQ, List.pairwise_cons] at hs
  obtain ⟨hhd, hrest⟩ := hs
  by_cases hc : t.priority < hd.priority
  · have hid : t.id = callerId := by
      rcases hcond with h | h
      · exact h
      · exact absurd hc h
    simp only [insertThread, if_pos hc, if_pos hid]
    rw [spliceFrontUB, if_pos hc]
    refine List.Pairwise.cons ?_ (List.Pairwise.cons hhd hrest)
    intro b hb
    rcases List.mem_cons.mp hb with rfl | hb
    · exact le_of_lt hc
    · exact le_trans (le_of_lt hc) (hhd b hb)
  · simp only [insertThread, if_neg hc]
    exact insertUB_sorted rfl (List.Pairwise.cons hhd hrest)

theorem insertThread_sorted_nil {callerId : Nat} {t : KThread} :
    SortedQ ((insertThread callerId t []).1) := by
  simp [insertThread, SortedQ]

theorem insertThread_mem_id (callerId : Nat) (t : KThread) (q : List KThread) :
    t.id ∈ ((insertThread callerId t q).1.map KThread.id) := by
  cases q with
  | nil => simp [insertThread]
  | cons hd rest =>
    by_cases hc : t.priority < hd.priority
    · by_cases hid : t.id = callerId
      · simp [insertThread, if_pos hc, if_pos hid]
      · simp [insertThread, if_pos hc, if_neg hid]
    · simp only [insertThread, if_neg hc]
      have : t ∈ insertUB t.priority t (hd :: rest) := mem_insertUB.mpr (Or.inl rfl)
      exact List.mem_map_of_mem KThread.id this

theorem rotate_sorted {t : KThread} {q : List KThread} {now : Nat} {coop : Bool}
    {r : RotateResult} (hs : SortedQ q) (h : rotate t q now coop = some r) :
    SortedQ r.queue := by
  cases q with
  | nil => exact absurd h (by simp [rotate])
  | cons hd rest =>
    rw [SortedQ, List.pairwise_cons] at hs
    obtain ⟨hhd, hrest⟩ := hs
    by_cases h1 : hd.id = t.id
    · simp only [rotate, if_pos h1] at h
      obtain rfl := Option.some.inj h
      dsimp only
      rw [spliceFrontUB, if_neg (lt_irrefl hd.priority)]
      refine insertUB_sorted ?_ hrest
      rfl
    · by_cases h2 : t.forceYield
      · by_cases h3 : bandFind t.id t.priority (hd :: rest)
        · simp only [rotate, if_neg h1, if_pos h2, if_pos h3] at h
          obtain rfl := Option.some.inj h
          dsimp only
          refine sorted_updateById ?_ (List.Pairwise.cons hhd hrest)
          intro u
          rfl
        · simp only [rotate, if_neg h1, if_pos h2, if_neg h3] at h
          obtain rfl := Option.some.inj h
          exact List.Pairwise.cons hhd hrest
      · simp only [rotate, if_neg h1, if_neg h2] at h
        obtain rfl := Option.some.inj h
        exact List.Pairwise.cons hhd hrest

theorem removeThread_sorted {t : KThread} {q : List KThread} {now : Nat}
    (hs : SortedQ q) : SortedQ ((removeThread t q now).queue) := by
  rw [removeThread_queue]
  exact sorted_eraseById hs

theorem removeThread_thread_priority (t : KThread) (q : List KThread) (now : Nat) :
    (removeThread t q now).thread.priority = t.priority := by
  rw [removeThread]
  cases findIdxId t.id q with
  | none => rfl
  | some i =>
    by_cases hi : i = 0
    · by_cases ht : t.timesliceStart ≠ 0 <;> simp [hi, ht]
    · simp [hi]

theorem removeThread_thread_id (t : KThread) (q : List KThread) (now : Nat) :
    (removeThread t q now).thread.id = t.id := by
  rw [removeThread]
  cases findIdxId t.id q with
  | none => rfl
  | some i =>
    by_cases hi : i = 0
    · by_cases ht : t.timesliceStart ≠ 0 <;> simp [hi, ht]
    · simp [hi]

theorem updatePriority_sorted {t : KThread} {q : List KThread} {pp : Int}
    (hco : ∀ u ∈ q, u.id = t.id → u.priority = t.priority) (hs : SortedQ q) :
    SortedQ ((updatePriority t q pp).queue) := by
  rw [updatePriority]
  cases hidx : findIdxId t.id q with
  | none => exact hs
  | some i =>
    dsimp only
    by_cases hi0 : i = 0
    · rw [if_pos hi0]; exact hs
    · rw [if_neg hi0]
      by_cases hub : ubPos t.priority q = i
      · rw [if_pos hub]; exact hs
      · rw [if_neg hub]
        have hq1 : SortedQ (eraseById t.id q) := sorted_eraseById hs
        cases heq : eraseById t.id q with
        | nil =>
          simp only [heq]
          exact List.pairwise_singleton _ _
        | cons f rest1 =>
          simp only [heq]
          rw [heq] at hq1
          rw [SortedQ, List.pairwise_cons] at hq1
          obtain ⟨hf1, hrest1⟩ := hq1
          by_cases hf : t.priority < f.priority
          · exfalso
            obtain ⟨j, rfl⟩ : ∃ j, i = j + 1 := ⟨i - 1, by omega⟩
            cases q with
            | nil => exact absurd hidx (by simp [findIdxId])
            | cons hd tl =>
              obtain ⟨hhdid, htl⟩ := findIdxId_cons_succ hidx
              have herase : eraseById t.id (hd :: tl) = hd :: eraseById t.id tl := by
                rw [eraseById, if_neg hhdid]
              rw [herase] at heq
              injection heq with h1 h2
              obtain ⟨u, hu, huid⟩ := findIdxId_get htl
              have humem : u ∈ tl := List.get?_mem hu
              have hup : u.priority = t.priority :=
                hco u (List.mem_cons_of_mem _ humem) huid
              rw [SortedQ, List.pairwise_cons] at hs
              have hle : hd.priority ≤ u.priority := hs.1 u humem
              rw [hup] at hle
              rw [← h1] at hf
              exact absurd hf (not_lt.mpr hle)
          · rw [if_neg hf]
            refine insertUB_sorted ?_ (List.Pairwise.cons hf1 hrest1)
            split <;> rfl

theorem updatePriority_tail_sorted {t : KThread} {q : List KThread} {pp : Int}
    (hco : ∀ u ∈ q, u.id = t.id → u.priority = t.priority)
    (hse : SortedQ (eraseById t.id q)) :
    SortedQ ((updatePriority t q pp).queue.drop 1) := by
  rw [updatePriority]
  cases hidx : findIdxId t.id q with
  | none =>
    rw [eraseById_of_none (findIdxId_eq_none.mp hidx)] at hse
    exact sorted_drop1 hse
  | some i =>
    dsimp only
    by_cases hi0 : i = 0
    · rw [if_pos hi0]
      subst hi0
      obtain ⟨u, rest, rfl, huid⟩ := findIdxId_zero hidx
      rw [eraseById, if_pos huid] at hse
      exact hse
    · rw [if_neg hi0]
      by_cases hub : ubPos t.priority q = i
      · exfalso
        obtain ⟨u, hu, huid⟩ := findIdxId_get hidx
        have : t.priority < u.priority := ubPos_get hub hu
        rw [hco u (List.get?_mem hu) huid] at this
        exact lt_irrefl _ this
      · rw [if_neg hub]
        cases heq : eraseById t.id q with
        | nil => simp only [heq, List.drop_succ_cons, List.drop_nil, SortedQ, List.Pairwise.nil]
        | cons f rest1 =>
          simp only [heq]
          rw [heq] at hse
          rw [SortedQ, List.pairwise_cons] at hse
          obtain ⟨hf1, hrest1⟩ := hse
          by_cases hf : t.priority < f.priority
          · rw [if_pos hf]
            show SortedQ (_ :: rest1)
            refine List.Pairwise.cons ?_ hrest1
            intro b hb
            have hbp : f.priority ≤ b.priority := hf1 b hb
            have ht1p : (if (t.isPreempted && decide (t.priority ≠ pp)) = true then
                { t with isPreempted := false } else t).priority = t.priority := by
              split <;> rfl
            calc (if (t.isPreempted && decide (t.priority ≠ pp)) = true then
                    { t with isPreempted := false } else t).priority
                = t.priority := ht1p
              _ ≤ f.priority := le_of_lt hf
              _ ≤ b.priority := hbp
          · rw [if_neg hf]
            refine sorted_drop1 (insertUB_sorted ?_ (List.Pairwise.cons hf1 hrest1))
            split <;> rfl

theorem parkThread_parked_sorted {cores : List CoreCtx} {parked : List KThread}
    {t : KThread} {now : Nat} (hs : SortedQ parked) :
    SortedQ ((parkThread cores parked t now).parked) := by
  unfold parkThread
  dsimp only
  split
  · refine insertUB_sorted ?_ hs
    exact removeThread_thread_priority t _ now
  · exact hs

theorem modifyCore_modifyCore :
    ∀ (cs : List CoreCtx) (i : Nat) (f g : List KThread → List KThread),
      modifyCore (modifyCore cs i f) i g = modifyCore cs i (fun q => g (f q)) := by
  intro cs
  induction cs with
  | nil => intro i f g; rfl
  | cons c rest ih =>
    intro i f g
    cases i with
    | zero => rfl
    | succ n => simp only [modifyCore, ih]

theorem modifyCore_map_proj :
    ∀ (cs : List CoreCtx) (i : Nat) (F : List KThread → List KThread),
      (∀ c ∈ cs, (F c.queue).map KThread.id = c.queue.map KThread.id) →
      (modifyCore cs i F).map (fun c => c.queue.map KThread.id) =
        cs.map (fun c => c.queue.map KThread.id) := by
  intro cs
  induction cs with
  | nil => intro i F _; rfl
  | cons c rest ih =>
    intro i F h
    cases i with
    | zero =>
      simp only [modifyCore, List.map_cons]
      rw [h c (List.mem_cons_self _ _)]
    | succ n =>
      simp only [modifyCore, List.map_cons]
      rw [ih n F (fun d hd => h d (List.mem_cons_of_mem _ hd))]

theorem modifyCore_idsAligned :
    ∀ (cs : List CoreCtx) (i n : Nat) (f : List KThread → List KThread),
      idsAligned (modifyCore cs i f) n = idsAligned cs n := by
  intro cs
  induction cs with
  | nil => intro i n f; rfl
  | cons c rest ih =>
    intro i n f
    cases i with
    | zero => rfl
    | succ m => simp only [modifyCore, idsAligned, ih]

theorem modifyCore_get?_self :
    ∀ (cs : List CoreCtx) (i : Nat) (f : List KThread → List KThread),
      (modifyCore cs i f).get? i = (cs.get? i).map (fun c => { c with queue := f c.queue }) := by
  intro cs
  induction cs with
  | nil => intro i f; rfl
  | cons c rest ih =>
    intro i f
    cases i with
    | zero => rfl
    | succ n =>
      show (modifyCore rest n f).get? n = _
      exact ih n f

theorem mem_modifyCore :
    ∀ {cs : List CoreCtx} {i : Nat} {f : List KThread → List KThread} {c : CoreCtx},
      c ∈ modifyCore cs i f → c ∈ cs ∨ ∃ d ∈ cs, c = { d with queue := f d.queue } := by
  intro cs
  induction cs with
  | nil => intro i f c h; exact absurd h (by simp [modifyCore])
  | cons c0 rest ih =>
    intro i f c h
    cases i with
    | zero =>
      rcases List.mem_cons.mp h with rfl | h
      · exact Or.inr ⟨c0, List.mem_cons_self _ _, rfl⟩
      · exact Or.inl (List.mem_cons_of_mem _ h)
    | succ n =>
      rcases List.mem_cons.mp h with rfl | h
      · exact Or.inl (List.mem_cons_self _ _)
      · rcases ih h with h | ⟨d, hd, rfl⟩
        · exact Or.inl (List.mem_cons_of_mem _ h)
        · exact Or.inr ⟨d, List.mem_cons_of_mem _ hd, rfl⟩

theorem idsAligned_get? :
    ∀ (cs : List CoreCtx) (n k : Nat) {c : CoreCtx},
      idsAligned cs n = true → cs.get? k = some c → c.id = n + k := by
  intro cs
  induction cs with
  | nil => intro n k c _ h; exact absurd h (by simp)
  | cons c0 rest ih =>
    intro n k c ha hg
    rw [idsAligned, Bool.and_eq_true, beq_iff_eq] at ha
    cases k with
    | zero =>
      obtain rfl := Option.some.inj hg
      omega
    | succ m =>
      have := ih (n + 1) m ha.2 (by simpa using hg)
      omega

theorem get?_mem_exists : ∀ {α : Type} {l : List α} {a : α}, a ∈ l → ∃ k, l.get? k = some a := by
  intro α l
  induction l with
  | nil => intro a h; exact absurd h (List.not_mem_nil _)
  | cons b rest ih =>
    intro a h
    rcases List.mem_cons.mp h with rfl | h
    · exact ⟨0, rfl⟩
    · obtain ⟨k, hk⟩ := ih h
      exact ⟨k + 1, by simpa using hk⟩

theorem get?_some_lt : ∀ {α : Type} {l : List α} {k : Nat} {a : α},
    l.get? k = some a → k < l.length := by
  intro α l
  induction l with
  | nil => intro k a h; exact absurd h (by simp)
  | cons b rest ih =>
    intro k a h
    cases k with
    | zero => simp
    | succ m =>
      have := ih (by simpa using h)
      simpa using Nat.succ_lt_succ this

theorem get?_append_len :
    ∀ (l1 : List CoreCtx) (c : CoreCtx) (l2 : List CoreCtx),
      (l1 ++ c :: l2).get? l1.length = some c := by
  intro l1
  induction l1 with
  | nil => intro c l2; rfl
  | cons d rest ih => intro c l2; simpa using ih c l2

theorem parkSelectGo_all_false {pred : CoreCtx → Bool} :
    ∀ {cs : List CoreCtx} {acc : Nat}, (∀ c ∈ cs, pred c = false) →
      parkSelectGo pred cs acc = acc := by
  intro cs
  induction cs with
  | nil => intro acc _; rfl
  | cons c rest ih =>
    intro acc h
    rw [parkSelectGo, if_neg (by simp [h c (List.mem_cons_self _ _)])]
    exact ih (fun d hd => h d (List.mem_cons_of_mem _ hd))

theorem parkSelectGo_split {pred : CoreCtx → Bool} :
    ∀ (cs : List CoreCtx) (acc : Nat), (∃ c ∈ cs, pred c = true) →
      ∃ l1 c l2, cs = l1 ++ c :: l2 ∧ pred c = true ∧ (∀ d ∈ l2, pred d = false) ∧
        parkSelectGo pred cs acc = c.id := by
  intro cs
  induction cs with
  | nil => intro acc h; obtain ⟨c, hc, _⟩ := h; exact absurd hc (List.not_mem_nil _)
  | cons c0 rest ih =>
    intro acc h
    by_cases hrest : ∃ c ∈ rest, pred c = true
    · obtain ⟨l1, c, l2, heq, hc, hl2, hgo⟩ := ih (if pred c0 then c0.id else acc) hrest
      refine ⟨c0 :: l1, c, l2, by rw [heq]; rfl, hc, hl2, ?_⟩
      rw [parkSelectGo]
      exact hgo
    · have hc0 : pred c0 = true := by
        obtain ⟨c, hcmem, hcp⟩ := h
        rcases List.mem_cons.mp hcmem with rfl | hcmem
        · exact hcp
        · exact absurd ⟨c, hcmem, hcp⟩ hrest
      have hall : ∀ d ∈ rest, pred d = false := by
        intro d hd
        by_contra hne
        exact hrest ⟨d, hd, by revert hne; cases pred d <;> simp⟩
      refine ⟨[], c0, rest, rfl, hc0, hall, ?_⟩
      rw [parkSelectGo, if_pos hc0]
      exact parkSelectGo_all_false hall
theorem selectStep_good (t : KThread) (currentId now : Nat) {processed : List CoreCtx}
    {acc : Option (Nat × Nat)} (c : CoreCtx) (h : SelGood t currentId now processed acc) :
    SelGood t currentId now (processed ++ [c]) (selectStep t currentId now acc c) := by
  by_cases hadm : t.affinityMask.getD c.id false = true
  · cases acc with
    | none =>
      simp only [SelGood] at h
      simp only [selectStep, if_pos hadm, SelGood]
      refine ⟨⟨c, by simp, hadm, rfl, rfl⟩, ?_, ?_⟩
      · intro c' hc' hadm'
        rcases List.mem_append.mp hc' with hc' | hc'
        · rw [h c' hc'] at hadm'
          exact Bool.noConfusion hadm'
        · obtain rfl : c' = c := by simpa using hc'
          exact le_refl _
      · rintro ⟨c', hc', hadm', hcid, hts⟩
        rcases List.mem_append.mp hc' with hc' | hc'
        · rw [h c' hc'] at hadm'
          exact Bool.noConfusion hadm'
        · obtain rfl : c' = c := by simpa using hc'
          exact hcid
    | some bb =>
      obtain ⟨bid, bts⟩ := bb
      simp only [SelGood] at h
      obtain ⟨⟨cw, hcw, hcwadm, hcwid, hcwts⟩, hmin, htie⟩ := h
      by_cases hcond : threadTimeslice now t.priority c.queue < bts ∨
          (threadTimeslice now t.priority c.queue = bts ∧ c.id = currentId)
      · simp only [selectStep, if_pos hadm]
        rw [if_pos hcond]
        simp only [SelGood]
        refine ⟨⟨c, by simp, hadm, rfl, rfl⟩, ?_, ?_⟩
        · intro c' hc' hadm'
          rcases List.mem_append.mp hc' with hc' | hc'
          · have hb := hmin c' hc' hadm'
            rcases hcond with hlt | ⟨heq, _⟩
            · exact le_trans (le_of_lt hlt) hb
            · exact heq ▸ hb
          · obtain rfl : c' = c := by simpa using hc'
            exact le_refl _
        · rintro ⟨c', hc', hadm', hcid, hts⟩
          rcases List.mem_append.mp hc' with hc' | hc'
          · have hb := hmin c' hc' hadm'
            rcases hcond with hlt | ⟨_, hcur⟩
            · rw [hts] at hb
              exact absurd (lt_of_lt_of_le hlt hb) (lt_irrefl _)
            · exact hcur
          · obtain rfl : c' = c := by simpa using hc'
            exact hcid
      · simp only [selectStep, if_pos hadm]
        rw [if_neg hcond]
        push_neg at hcond
        obtain ⟨hnlt, hneq⟩ := hcond
        simp only [SelGood]
        refine ⟨⟨cw, List.mem_append_left _ hcw, hcwadm, hcwid, hcwts⟩, ?_, ?_⟩
        · intro c' hc' hadm'
          rcases List.mem_append.mp hc' with hc' | hc'
          · exact hmin c' hc' hadm'
          · obtain rfl : c' = c := by simpa using hc'
            exact hnlt
        · rintro ⟨c', hc', hadm', hcid, hts⟩
          rcases List.mem_append.mp hc' with hc' | hc'
          · exact htie ⟨c', hc', hadm', hcid, hts⟩
          · obtain rfl : c' = c := by simpa using hc'
            exact absurd hcid (hneq hts)
  · have hadmf : t.affinityMask.getD c.id false = false := by
      revert hadm; cases t.affinityMask.getD c.id false <;> simp
    cases acc with
    | none =>
      simp only [SelGood] at h
      simp only [selectStep, if_neg hadm, SelGood]
      intro c' hc'
      rcases List.mem_append.mp hc' with hc' | hc'
      · exact h c' hc'
      · obtain rfl : c' = c := by simpa using hc'
        exact hadmf
    | some bb =>
      obtain ⟨bid, bts⟩ := bb
      simp only [SelGood] at h
      obtain ⟨⟨cw, hcw, hcwadm, hcwid, hcwts⟩, hmin, htie⟩ := h
      simp only [selectStep, if_neg hadm, SelGood]
      refine ⟨⟨cw, List.mem_append_left _ hcw, hcwadm, hcwid, hcwts⟩, ?_, ?_⟩
      · intro c' hc' hadm'
        rcases List.mem_append.mp hc' with hc' | hc'
        · exact hmin c' hc' hadm'
        · obtain rfl : c' = c := by simpa using hc'
          rw [hadmf] at hadm'
          exact Bool.noConfusion hadm'
      · rintro ⟨c', hc', hadm', hcid, hts⟩
        rcases List.mem_append.mp hc' with hc' | hc'
        · exact htie ⟨c', hc', hadm', hcid, hts⟩
        · obtain rfl : c' = c := by simpa using hc'
          rw [hadmf] at hadm'
          exact Bool.noConfusion hadm'

theorem selectGo_good (t : KThread) (currentId now : Nat) :
    ∀ (cs : List CoreCtx) {processed : List CoreCtx} {acc : Option (Nat × Nat)},
      SelGood t currentId now processed acc →
      SelGood t currentId now (processed ++ cs) (selectGo t currentId now cs acc) := by
  intro cs
  induction cs with
  | nil => intro processed acc h; simpa using h
  | cons c rest ih =>
    intro processed acc h
    rw [selectGo]
    have h1 := selectStep_good t currentId now c h
    have h2 := ih h1
    rw [List.append_assoc] at h2
    simpa using h2
theorem insert_remove_ids (callerId : Nat) (t : KThread) {q : List KThread} (now : Nat)
    (h : ∀ u ∈ q, u.id ≠ t.id) :
    ((removeThread t (insertThread callerId t q).1 now).queue).map KThread.id =
      q.map KThread.id := by
  rw [removeThread_queue]
  cases q with
  | nil => simp [insertThread, eraseById]
  | cons hd rest =>
    have hhd : hd.id ≠ t.id := h hd (List.mem_cons_self _ _)
    by_cases hc : t.priority < hd.priority
    · by_cases hid : t.id = callerId
      · simp only [insertThread, if_pos hc, if_pos hid]
        rw [spliceFrontUB, if_pos hc, eraseById, if_pos rfl]
        simp
      · simp only [insertThread, if_pos hc, if_neg hid]
        rw [eraseById, if_neg hhd, eraseById, if_pos rfl]
    · simp only [insertThread, if_neg hc]
      rw [eraseById_insertUB (fun u hu => h u hu)]

theorem removeThread_not_found {t : KThread} {q : List KThread} {now : Nat}
    (h : ∀ u ∈ q, u.id ≠ t.id) :
    removeThread t q now =
      ⟨{ t with isPreempted := false }, q, none, t.isPreempted, false⟩ := by
  rw [removeThread, findIdxId_eq_none.mpr h]

theorem modifyCore_congr_id :
    ∀ (cs : List CoreCtx) (i : Nat) (F : List KThread → List KThread),
      (∀ c ∈ cs, F c.queue = c.queue) → modifyCore cs i F = cs := by
  intro cs
  induction cs with
  | nil => intro i F _; rfl
  | cons c rest ih =>
    intro i F h
    cases i with
    | zero =>
      simp only [modifyCore]
      rw [h c (List.mem_cons_self _ _)]
    | succ n =>
      simp only [modifyCore]
      rw [ih n F (fun d hd => h d (List.mem_cons_of_mem _ hd))]

theorem modifyCore_length :
    ∀ (cs : List CoreCtx) (i : Nat) (f : List KThread → List KThread),
      (modifyCore cs i f).length = cs.length := by
  intro cs
  induction cs with
  | nil => intro i f; rfl
  | cons c rest ih =>
    intro i f
    cases i with
    | zero => rfl
    | succ n => simp [modifyCore, ih n f]

theorem allSortedQ_modify_const {cores : List CoreCtx} {i : Nat} {qq : List KThread}
    (hall : AllSortedQ cores) (hq : SortedQ qq) :
    AllSortedQ (modifyCore cores i (fun _ => qq)) := by
  intro c hc
  rcases mem_modifyCore hc with h | ⟨d, _, rfl⟩
  · exact hall c h
  · exact hq

theorem tail_sorted_modify_insert {cores : List CoreCtx} {i cid : Nat} {tX : KThread}
    (hall : AllSortedQ cores) :
    ∀ c ∈ modifyCore cores i (fun q => (insertThread cid tX q).1),
      SortedQ (c.queue.drop 1) := by
  intro c hc
  rcases mem_modifyCore hc with h | ⟨d, hd, rfl⟩
  · exact sorted_drop1 (hall c h)
  · exact insertThread_tail_sorted (hall d hd)

theorem loadBalance_cores_tail_sorted {cores : List CoreCtx} {t : KThread}
    {callerId : Nat} {ai : Bool} {now : Nat} {bid : Nat} {mig : Bool} {cs : List CoreCtx}
    (hall : AllSortedQ cores)
    (h : loadBalance cores t callerId ai now = LBOutcome.ok bid mig cs) :
    ∀ c ∈ cs, SortedQ (c.queue.drop 1) := by
  unfold loadBalance at h
  split at h
  · exact absurd h (by simp)
  next cur hcur =>
    have hcursorted : SortedQ cur.queue := hall cur (List.get?_mem hcur)
    split at h
    · split at h
      · exact absurd h (by simp)
      · split at h
        · split at h
          · injection h with h1 h2 h3
            subst h3
            exact tail_sorted_modify_insert
              (allSortedQ_modify_const hall (removeThread_sorted hcursorted))
          · split at h
            · exact absurd h (by simp)
            · injection h with h1 h2 h3
              subst h3
              exact tail_sorted_modify_insert hall
        · split at h
          · injection h with h1 h2 h3
            subst h3
            exact tail_sorted_modify_insert hall
          · injection h with h1 h2 h3
            subst h3
            exact fun c hc => sorted_drop1 (hall c hc)
    · split at h
      · injection h with h1 h2 h3
        subst h3
        exact tail_sorted_modify_insert hall
      · injection h with h1 h2 h3
        subst h3
        exact fun c hc => sorted_drop1 (hall c hc)

theorem insertUB_eq_takeWhile_dropWhile (p : Int) (t : KThread) :
    ∀ l : List KThread,
      insertUB p t l =
        l.takeWhile (fun u => !decide (p < u.priority)) ++
          t :: l.dropWhile (fun u => !decide (p < u.priority)) := by
  intro l
  induction l with
  | nil => rfl
  | cons u rest ih =>
    by_cases hc : p < u.priority
    · rw [insertUB, if_pos hc]
      simp [List.takeWhile_cons, List.dropWhile_cons, hc]
    · rw [insertUB, if_neg hc]
      simp only [List.takeWhile_cons, List.dropWhile_cons]
      simp only [decide_eq_true_eq] at *
      simp [hc, ih]
/-- C1 (code bug): the claim states the EWMA update
`avg/4 + 3*(now - timesliceStart)/4` and the containment of the result in
`[min(old, sample), max(old, sample)]`.  The source instead computes
`avg/4 + 3*(now - timesliceStart/4)`, contradicting its own comment
`0.25 * old timeslice duration + 0.75 * current timeslice duration`: at
`averageTimeslice = 0`, `timesliceStart = 4`, `now = 4` a Rotate of the queue
head yields 9, while the claimed formula gives 0 and the claimed interval is
`{0}`. -/
theorem C1_ewma_code_bug :
    (rotate tC1 [tC1] 4 false).map (fun r => r.thread.averageTimeslice) = some 9 ∧
    ewmaCode tC1.averageTimeslice 4 tC1.timesliceStart = 9 ∧
    ewmaSpec tC1.averageTimeslice 4 tC1.timesliceStart = 0 ∧
    ¬(9 ≤ max tC1.averageTimeslice (4 - tC1.timesliceStart)) := by
  decide

/-- C3 (code bug): with a non-empty parked queue whose head has strictly
higher priority than the caller, a caller whose core queue holds exactly one
element drives `WakeParkedThread` into the unconditional dereference of the
null `nextThread` at scheduler.cpp:296 - undefined behaviour, marked `none`
by the model - although the claim (and spec section 4.7) requires the
operation to be well-defined there. -/
theorem C3_wake_null_deref :
    pC3.priority < tC3.priority ∧
    wakeParkedThread [pC3] tC3 [tC3] = none := by
  decide

/-- C5 (code bug): with the thread at the head of its core queue and the next
element of strictly higher priority, `UpdatePriority` performs no action at
all - no `YieldSignal`, no timer arming - because the early return at
scheduler.cpp:230 already covers `currentIt == queue.begin()`, making the
head branch at lines 233-245 dead code; the claim describes that dead
branch. -/
theorem C5_update_head_dead_code :
    uC5.priority < tC5.priority ∧
    updatePriority tC5 [tC5, uC5] tC5.priority =
      ⟨[tC5, uC5], none, false, false, tC5⟩ := by
  decide

/-- C9 (confirmed): a `TimedWaitSchedule` whose wait predicate does not become
true within the timeout returns `false`, performs no load balancing, and
leaves the thread (in particular `isPreempted` and `timesliceStart`) and the
core queue unchanged. -/
theorem C9_timed_wait_timeout (t : KThread) (q : List KThread) (pp : Int) (now : Nat) :
    timedWaitSchedule t q pp now false = ⟨false, t, q, false, false⟩ :=
  rfl

/-- C10 (confirmed): `RemoveThread` called by a thread absent from its core's
queue leaves the queue (and the whole scheduler state) unchanged and notifies
nobody, yet still reports the timer disarm exactly when `isPreempted` was
set, leaves `isPreempted` cleared, and clears `YieldPending`. -/
theorem C10_remove_absent (t : KThread) (q : List KThread) (now : Nat) (s : Sched)
    (hq : ∀ u ∈ q, u.id ≠ t.id)
    (hs : ∀ c ∈ s.cores, ∀ u ∈ c.queue, u.id ≠ t.id) :
    removeThread t q now =
      ⟨{ t with isPreempted := false }, q, none, t.isPreempted, false⟩ ∧
    schedRemove s t now = s := by
  refine ⟨removeThread_not_found hq, ?_⟩
  unfold schedRemove
  have hF : ∀ c ∈ s.cores, (removeThread t c.queue now).queue = c.queue := by
    intro c hc
    rw [removeThread_queue]
    exact eraseById_of_none (hs c hc)
  rw [modifyCore_congr_id s.cores t.coreId _ hF]

/-- Witness for C10 at a concrete preempted thread absent from the queue. -/
theorem C10_witness :
    removeThread tC10 qC10 0 =
      ⟨{ tC10 with isPreempted := false }, qC10, none, tC10.isPreempted, false⟩ ∧
    schedRemove sC10 tC10 0 = sC10 :=
  C10_remove_absent tC10 qC10 0 sC10 (by decide) (by decide)

/-- C6 (counterexample): a thread with `forceYield` set that is not in its
core's queue drives `Rotate` into the `InvalidSchedulerState` exit, and on
that exit `forceYield` is NOT cleared (the clearing at scheduler.cpp:221 is
skipped by the throw), contradicting the claim that every exit path clears
it. -/
theorem C6_counterexample :
    tC6.forceYield = true ∧
    (rotate tC6 [uC6] 0 true).map (fun r => (r.error, r.thread.forceYield)) =
      some (true, true) := by
  decide

/-- C6 (amended): `Rotate` clears the calling thread's `forceYield` on both
non-throwing exit paths (head path and successful force-yield path); on the
`InvalidSchedulerState` throwing paths `forceYield` is left unchanged. -/
theorem C6_forceYield_amended (t : KThread) (q : List KThread) (now : Nat)
    (coop : Bool) (r : RotateResult) (h : rotate t q now coop = some r) :
    (r.error = false → r.thread.forceYield = false) ∧
    (r.error = true → r.thread.forceYield = t.forceYield) := by
  cases q with
  | nil => exact absurd h (by simp [rotate])
  | cons hd rest =>
    by_cases h1 : hd.id = t.id
    · simp only [rotate, if_pos h1] at h
      obtain rfl := Option.some.inj h
      exact ⟨fun _ => rfl, fun hc => Bool.noConfusion hc⟩
    · by_cases h2 : t.forceYield
      · by_cases h3 : bandFind t.id t.priority (hd :: rest) = true
        · simp only [rotate, if_neg h1, if_pos h2, if_pos h3] at h
          obtain rfl := Option.some.inj h
          exact ⟨fun _ => rfl, fun hc => Bool.noConfusion hc⟩
        · simp only [rotate, if_neg h1, if_pos h2, if_neg h3] at h
          obtain rfl := Option.some.inj h
          exact ⟨fun hc => Bool.noConfusion hc, fun _ => rfl⟩
      · simp only [rotate, if_neg h1, if_neg h2] at h
        obtain rfl := Option.some.inj h
        exact ⟨fun hc => Bool.noConfusion hc, fun _ => rfl⟩

/-- Witness for C6 on the successful head path: `forceYield` comes out
cleared. -/
theorem C6_witness :
    ∃ r, rotate (mkT 1 10) [mkT 1 10] 0 true = some r ∧
      r.thread.forceYield = false := by
  obtain ⟨r, hr⟩ : ∃ r, rotate (mkT 1 10) [mkT 1 10] 0 true = some r := ⟨_, rfl⟩
  have herr : r.error = false := by
    have hmap : (rotate (mkT 1 10) [mkT 1 10] 0 true).map (fun x => x.error) =
        some false := by decide
    rw [hr] at hmap
    exact Option.some.inj hmap
  exact ⟨r, hr, (C6_forceYield_amended _ _ _ _ r hr).1 herr⟩

/-- C8 (confirmed): inserting a thread absent from every queue and then having
it remove itself returns every core queue (as the sequence of thread handles,
i.e. identities) and the parked queue to the pre-state.  The C++ queues hold
`shared_ptr` handles; the self-yield insertion path may flip a field of the
old head object, but the queues' contents are the same handles. -/
theorem C8_insert_remove_roundtrip (s : Sched) (callerId : Nat) (t : KThread)
    (now : Nat) (_hrange : t.coreId < s.cores.length)
    (h : ∀ c ∈ s.cores, ∀ u ∈ c.queue, u.id ≠ t.id)
    (_hparked : ∀ u ∈ s.parked, u.id ≠ t.id) :
    (schedRemove (schedInsert s callerId t) t now).cores.map
        (fun c => c.queue.map KThread.id) =
      s.cores.map (fun c => c.queue.map KThread.id) ∧
    (schedRemove (schedInsert s callerId t) t now).parked = s.parked := by
  unfold schedRemove schedInsert
  constructor
  · dsimp only
    rw [modifyCore_modifyCore]
    exact modifyCore_map_proj s.cores t.coreId _
      (fun c hcmem => insert_remove_ids callerId t now (h c hcmem))
  · rfl

/-- Witness for C8 at a concrete two-core state. -/
theorem C8_witness :
    (schedRemove (schedInsert sC8 2 tC8) tC8 0).cores.map
        (fun c => c.queue.map KThread.id) =
      sC8.cores.map (fun c => c.queue.map KThread.id) ∧
    (schedRemove (schedInsert sC8 2 tC8) tC8 0).parked = sC8.parked :=
  C8_insert_remove_roundtrip sC8 2 tC8 0 (by decide) (by decide) (by decide)
/-- C2 (counterexample): the deferred-dethrone path of `InsertThread` breaks
the sortedness invariant: an external caller inserting a priority-30 thread
into the queue `[priority 40]` produces `[40, 30]`, which is not sorted by
ascending priority. -/
theorem C2_counterexample :
    SortedQ [hC2] ∧ ¬SortedQ ((insertThread 99 tC2 [hC2]).1) := by
  decide

/-- C2 (amended): each core queue remains non-strictly sorted by ascending
priority across the scheduler operations, except on the deferred-dethrone
paths.  In detail: insertion into an empty queue is sorted; insertion always
leaves the queue sorted from its second element on; insertion is fully sorted
whenever it is a self-insert or does not beat the head, and otherwise places
the new thread exactly at index 1 behind the old head; `Rotate` preserves
sortedness; `UpdatePriority` (whose queue holds the thread with its new
priority) preserves sortedness when the queue is still sorted, and in general
leaves the queue sorted from the second element on whenever the queue minus
the thread is sorted; `RemoveThread` preserves sortedness; the parked-queue
insertion of `ParkThread` preserves sortedness of the parked queue;
`LoadBalance` (which changes queues only through `RemoveThread` and
`InsertThread`) leaves every core queue sorted from its second element on;
and a plain upper-bound insertion places the thread after every element of
priority less than or equal to its own - FIFO within its band. -/
theorem C2_queue_order_amended :
    (∀ (callerId : Nat) (t : KThread), SortedQ ((insertThread callerId t []).1)) ∧
    (∀ (callerId : Nat) (t : KThread) (q : List KThread), SortedQ q →
      SortedQ ((insertThread callerId t q).1.drop 1)) ∧
    (∀ (callerId : Nat) (t hd : KThread) (rest : List KThread), SortedQ (hd :: rest) →
      (t.id = callerId ∨ ¬t.priority < hd.priority) →
      SortedQ ((insertThread callerId t (hd :: rest)).1)) ∧
    (∀ (callerId : Nat) (t hd : KThread) (rest : List KThread),
      t.priority < hd.priority → t.id ≠ callerId →
      (insertThread callerId t (hd :: rest)).1 = hd :: t :: rest) ∧
    (∀ (t : KThread) (q : List KThread) (now : Nat) (coop : Bool) (r : RotateResult),
      SortedQ q → rotate t q now coop = some r → SortedQ r.queue) ∧
    (∀ (t : KThread) (q : List KThread) (pp : Int),
      (∀ u ∈ q, u.id = t.id → u.priority = t.priority) →
      (SortedQ q → SortedQ ((updatePriority t q pp).queue)) ∧
      (SortedQ (eraseById t.id q) → SortedQ ((updatePriority t q pp).queue.drop 1))) ∧
    (∀ (t : KThread) (q : List KThread) (now : Nat),
      SortedQ q → SortedQ ((removeThread t q now).queue)) ∧
    (∀ (cores : List CoreCtx) (parked : List KThread) (t : KThread) (now : Nat),
      SortedQ parked → SortedQ ((parkThread cores parked t now).parked)) ∧
    (∀ (cores : List CoreCtx) (t : KThread) (callerId : Nat) (ai : Bool) (now : Nat)
        (bid : Nat) (mig : Bool) (cs : List CoreCtx),
      AllSortedQ cores → loadBalance cores t callerId ai now = LBOutcome.ok bid mig cs →
      ∀ c ∈ cs, SortedQ (c.queue.drop 1)) ∧
    (∀ (p : Int) (t : KThread) (l : List KThread),
      insertUB p t l =
        l.takeWhile (fun u => !decide (p < u.priority)) ++
          t :: l.dropWhile (fun u => !decide (p < u.priority))) :=
  ⟨fun _ _ => insertThread_sorted_nil,
   fun _ _ _ h => insertThread_tail_sorted h,
   fun _ _ _ _ hs hc => insertThread_sorted_cons hs hc,
   fun _ _ _ _ hc hid => insertThread_dethrone hc hid,
   fun _ _ _ _ _ hs h => rotate_sorted hs h,
   fun _ _ _ hco =>
     ⟨fun hs => updatePriority_sorted hco hs,
      fun hse => updatePriority_tail_sorted hco hse⟩,
   fun _ _ _ hs => removeThread_sorted hs,
   fun _ _ _ _ hs => parkThread_parked_sorted hs,
   fun _ _ _ _ _ _ _ _ hall h => loadBalance_cores_tail_sorted hall h,
   fun p t l => insertUB_eq_takeWhile_dropWhile p t l⟩

/-- Witness for C2 exercising each amended conjunct at concrete inputs. -/
theorem C2_witness :
    SortedQ ((insertThread 9 (mkT 3 50) []).1) ∧
    SortedQ ((insertThread 9 (mkT 3 50) [mkT 1 10, mkT 2 20]).1.drop 1) ∧
    SortedQ ((insertThread 9 (mkT 3 50) [mkT 1 10, mkT 2 20]).1) ∧
    (insertThread 9 (mkT 3 5) [mkT 1 10]).1 = [mkT 1 10, mkT 3 5] ∧
    (∃ r, rotate (mkT 1 10) [mkT 1 10, mkT 2 20] 0 true = some r ∧
      SortedQ r.queue) ∧
    SortedQ ((updatePriority (mkT 2 20) [mkT 1 10, mkT 2 20] 0).queue) ∧
    SortedQ ((updatePriority (mkT 2 20) [mkT 1 10, mkT 2 20] 0).queue.drop 1) ∧
    SortedQ ((removeThread (mkT 1 10) [mkT 1 10, mkT 2 20] 0).queue) ∧
    SortedQ ((parkThread coresC4 [mkT 4 15] tC4 0).parked) ∧
    (∃ cs, loadBalance coresC7 tC7 3 false 0 = LBOutcome.ok 0 false cs ∧
      ∀ c ∈ cs, SortedQ (c.queue.drop 1)) ∧
    insertUB 20 (mkT 6 20) [mkT 1 10, mkT 2 20, mkT 3 30] =
      [mkT 1 10, mkT 2 20].takeWhile (fun u => !decide ((20 : Int) < u.priority)) ++
        mkT 6 20 ::
          [mkT 1 10, mkT 2 20, mkT 3 30].dropWhile
            (fun u => !decide ((20 : Int) < u.priority)) := by
  refine ⟨C2_queue_order_amended.1 9 (mkT 3 50),
    C2_queue_order_amended.2.1 9 (mkT 3 50) [mkT 1 10, mkT 2 20] (by decide),
    C2_queue_order_amended.2.2.1 9 (mkT 3 50) (mkT 1 10) [mkT 2 20] (by decide)
      (Or.inr (by decide)),
    C2_queue_order_amended.2.2.2.1 9 (mkT 3 5) (mkT 1 10) [] (by decide) (by decide),
    ?_, ?_, ?_,
    C2_queue_order_amended.2.2.2.2.2.2.1 (mkT 1 10) [mkT 1 10, mkT 2 20] 0 (by decide),
    C2_queue_order_amended.2.2.2.2.2.2.2.1 coresC4 [mkT 4 15] tC4 0 (by decide),
    ?_, ?_⟩
  · exact ⟨_, rfl,
      C2_queue_order_amended.2.2.2.2.1 (mkT 1 10) [mkT 1 10, mkT 2 20] 0 true _
        (by decide) rfl⟩
  · exact (C2_queue_order_amended.2.2.2.2.2.1 (mkT 2 20) [mkT 1 10, mkT 2 20] 0
      (by decide)).1 (by decide)
  · exact (C2_queue_order_amended.2.2.2.2.2.1 (mkT 2 20) [mkT 1 10, mkT 2 20] 0
      (by decide)).2 (by decide)
  · refine ⟨coresC7, by decide, ?_⟩
    exact C2_queue_order_amended.2.2.2.2.2.2.2.2.1 coresC7 tC7 3 false 0 0 false
      coresC7 (by decide) (by decide)
  · have h := C2_queue_order_amended.2.2.2.2.2.2.2.2.2 20 (mkT 6 20)
      [mkT 1 10, mkT 2 20, mkT 3 30]
    rw [h]
    decide
/-- C4 (counterexample): with cores 0, 1, 2 admitted and empty (core 0 being
the caller's original core) the claim requires core 0, the first admissible
core in core-id order, to be chosen; `ParkThread`'s scan has no break and
skips the original core, so it chooses core 2. -/
theorem C4_counterexample :
    (parkThread coresC4 [] tC4 0).newCoreId = 2 ∧
    tC4.affinityMask.getD 0 false = true ∧
    (coresC4.get? 0).map CoreCtx.queue = some [] ∧
    (2 : Nat) ≠ 0 := by
  decide

/-- C4 (amended): when, after the caller removes itself, some core other than
the caller's original core is admitted by the affinity mask and has an empty
queue or a head of strictly lower priority, `ParkThread` chooses the LAST
such core in scan (core-id) order as the new `coreId`, does not enter the
parked queue, leaves the parked queue unchanged, and inserts the caller into
the chosen core's queue. -/
theorem C4_park_last_amended (cores : List CoreCtx) (parked : List KThread)
    (t : KThread) (now : Nat)
    (hIdx : idsAligned cores 0 = true) (hlen : cores.length ≤ ParkedCoreId)
    (hex : ∃ c ∈ parkCores1 cores t now,
      parkAdmissB t.coreId t.affinityMask t.priority c = true) :
    ∃ l1 c l2,
      parkCores1 cores t now = l1 ++ c :: l2 ∧
      parkAdmissB t.coreId t.affinityMask t.priority c = true ∧
      (∀ d ∈ l2, parkAdmissB t.coreId t.affinityMask t.priority d = false) ∧
      (parkThread cores parked t now).newCoreId = c.id ∧
      (parkThread cores parked t now).enteredParked = false ∧
      (parkThread cores parked t now).parked = parked ∧
      ∃ cc, (parkThread cores parked t now).cores.get? c.id = some cc ∧
        t.id ∈ cc.queue.map KThread.id := by
  obtain ⟨l1, c, l2, heq, hadm, hl2, hgo⟩ :=
    parkSelectGo_split (parkCores1 cores t now) ParkedCoreId hex
  have halign : idsAligned (parkCores1 cores t now) 0 = true := by
    unfold parkCores1
    rw [modifyCore_idsAligned]
    exact hIdx
  have hpos : (parkCores1 cores t now).get? l1.length = some c := by
    rw [heq]
    exact get?_append_len l1 c l2
  have hcid : c.id = l1.length := by
    have := idsAligned_get? (parkCores1 cores t now) 0 l1.length halign hpos
    omega
  have hlenq : (parkCores1 cores t now).length = cores.length := by
    unfold parkCores1
    exact modifyCore_length _ _ _
  have hlt : l1.length < cores.length := by
    have := get?_some_lt hpos
    rw [hlenq] at this
    exact this
  have hne : ¬(c.id = ParkedCoreId) := by
    rw [ParkedCoreId] at hlen ⊢
    omega
  have hposc : (parkCores1 cores t now).get? c.id = some c := by
    rw [hcid]
    exact hpos
  have hgo2 := hgo
  have hposc2 := hposc
  unfold parkCores1 at hgo2 hposc2
  refine ⟨l1, c, l2, heq, hadm, hl2, ?_, ?_, ?_, ?_⟩
  · unfold parkThread
    dsimp only
    rw [hgo2, if_neg hne]
  · unfold parkThread
    dsimp only
    rw [hgo2, if_neg hne]
  · unfold parkThread
    dsimp only
    rw [hgo2, if_neg hne]
  · unfold parkThread
    dsimp only
    rw [hgo2, if_neg hne]
    dsimp only
    rw [modifyCore_get?_self, hposc2, Option.map_some']
    refine ⟨_, rfl, ?_⟩
    dsimp only
    have h1 : (removeThread t (((cores.get? t.coreId).map CoreCtx.queue).getD [])
        now).thread.id = t.id := removeThread_thread_id t _ now
    rw [← h1]
    exact insertThread_mem_id _ _ _

/-- Witness for C4 at the concrete four-core state: cores 1 and 2 are
admissible after removal, core 2 (the last) is chosen, the caller lands in
its queue and the parked queue is untouched. -/
theorem C4_witness :
    ∃ l1 c l2,
      parkCores1 coresC4 tC4 0 = l1 ++ c :: l2 ∧
      parkAdmissB tC4.coreId tC4.affinityMask tC4.priority c = true ∧
      (∀ d ∈ l2, parkAdmissB tC4.coreId tC4.affinityMask tC4.priority d = false) ∧
      (parkThread coresC4 [] tC4 0).newCoreId = c.id ∧
      (parkThread coresC4 [] tC4 0).enteredParked = false ∧
      (parkThread coresC4 [] tC4 0).parked = [] ∧
      ∃ cc, (parkThread coresC4 [] tC4 0).cores.get? c.id = some cc ∧
        tC4.id ∈ cc.queue.map KThread.id :=
  C4_park_last_amended coresC4 [] tC4 0 (by decide) (by decide) (by decide)
/-- C7 (confirmed): for a multi-affine thread whose current core queue is
non-empty (and whose current core is admitted by its affinity mask, per the
affinity invariant), `LoadBalance`'s selection returns an admitted core
realizing the minimum projected wait over all admitted cores; every `ok`
outcome of `LoadBalance` chooses exactly that core; and whenever the current
core attains the minimum projection (ties included), the current core is
chosen and no migration occurs. -/
theorem C7_loadbalance_min (cores : List CoreCtx) (t : KThread) (now : Nat)
    (cur : CoreCtx) (hcur : cores.get? t.coreId = some cur)
    (hq : cur.queue ≠ []) (hm : t.affinityMask.count true ≠ 1)
    (hadm : t.affinityMask.getD cur.id false = true) :
    ∃ bid bts, selectGo t cur.id now cores none = some (bid, bts) ∧
      (∃ c ∈ cores, t.affinityMask.getD c.id false = true ∧ c.id = bid ∧
        threadTimeslice now t.priority c.queue = bts) ∧
      (∀ c ∈ cores, t.affinityMask.getD c.id false = true →
        bts ≤ threadTimeslice now t.priority c.queue) ∧
      (∀ (callerId : Nat) (ai : Bool) (bid2 : Nat) (mig : Bool) (cs : List CoreCtx),
        loadBalance cores t callerId ai now = LBOutcome.ok bid2 mig cs → bid2 = bid) ∧
      (threadTimeslice now t.priority cur.queue = bts →
        bid = cur.id ∧ ∀ (callerId : Nat) (ai : Bool), ∃ cs,
          loadBalance cores t callerId ai now = LBOutcome.ok cur.id false cs) := by
  have hmem : cur ∈ cores := List.get?_mem hcur
  have hgood : SelGood t cur.id now ([] ++ cores) (selectGo t cur.id now cores none) :=
    selectGo_good t cur.id now cores
      (by simp only [SelGood]; intro c hc; exact absurd hc (List.not_mem_nil _))
  rw [List.nil_append] at hgood
  cases hsel : selectGo t cur.id now cores none with
  | none =>
    exfalso
    rw [hsel] at hgood
    simp only [SelGood] at hgood
    rw [hgood cur hmem] at hadm
    exact Bool.noConfusion hadm
  | some bb =>
    obtain ⟨bid, bts⟩ := bb
    rw [hsel] at hgood
    simp only [SelGood] at hgood
    obtain ⟨hreal, hmin, htie⟩ := hgood
    refine ⟨bid, bts, rfl, hreal, hmin, ?_, ?_⟩
    · intro callerId ai bid2 mig cs h
      unfold loadBalance at h
      split at h
      · exact absurd h (by simp)
      next cur2 hcur2 =>
        rw [hcur] at hcur2
        obtain rfl := Option.some.inj hcur2
        split at h
        · split at h
          · exact absurd h (by simp)
          next bid' bts' hsel2 =>
            rw [hsel] at hsel2
            obtain ⟨rfl, rfl⟩ : bid = bid' ∧ bts = bts' := by
              have := Option.some.inj hsel2
              exact ⟨congrArg Prod.fst this, congrArg Prod.snd this⟩
            split at h
            · split at h
              · injection h with h1 h2 h3
                exact h1.symm
              · split at h
                · exact absurd h (by simp)
                · injection h with h1 h2 h3
                  exact h1.symm
            · split at h
              · injection h with h1 h2 h3
                exact h1.symm
              · injection h with h1 h2 h3
                exact h1.symm
        next hneg => exact (hneg ⟨hq, hm⟩).elim
    · intro hts
      have hbid : bid = cur.id := htie ⟨cur, hmem, hadm, rfl, hts⟩
      subst hbid
      refine ⟨rfl, ?_⟩
      intro callerId ai
      unfold loadBalance
      rw [hcur]
      dsimp only
      rw [if_pos ⟨hq, hm⟩, hsel]
      dsimp only
      rw [if_neg (fun hcon => hcon rfl)]
      cases ai with
      | true =>
        refine ⟨modifyCore cores cur.id (fun q => (insertThread callerId t q).1), ?_⟩
        rw [if_pos rfl]
      | false =>
        refine ⟨cores, ?_⟩
        rw [if_neg Bool.false_ne_true]

/-- Witness for C7 at two cores with tying projections: the current core 0 is
kept and no migration occurs. -/
theorem C7_witness :
    ∃ cs, loadBalance coresC7 tC7 3 false 0 = LBOutcome.ok 0 false cs := by
  obtain ⟨bid, bts, hsel, hreal, hmin, hok, htie⟩ :=
    C7_loadbalance_min coresC7 tC7 0 ⟨0, 0, [runnerC7]⟩ rfl (by decide) (by decide)
      (by decide)
  have h01 : selectGo tC7 0 0 coresC7 none = some (0, 1) := by decide
  rw [hsel] at h01
  have hbts : bts = 1 := congrArg Prod.snd (Option.some.inj h01)
  have hts : threadTimeslice 0 tC7.priority [runnerC7] = bts := by
    rw [hbts]
    decide
  obtain ⟨hbid, hlb⟩ := htie hts
  exact hlb 3 false

end Skyline
